import Mathlib

/-!
Formal model of the speech-feedback backend core: the annotation locator
(`services/language_feedback.py`), speaker-turn segmentation
(`models/elevenlabs.py`), and the LCS-based phoneme aligner (spec §4.3).

Python strings are modelled as `List Char` (a Python `str` is a sequence of
code points).  Python fallible calls are modelled with `Option`/`Except`, and
the locator's unbounded `while True` loop is modelled with explicit fuel:
`none` means the loop did not finish within the given number of iterations,
so "the call terminates" is "some fuel makes the result `some`".
-/

/-- Shorthand turning a Lean string literal into the `List Char` model of a
Python string. -/
def str (s : String) : List Char := s.data

/-- Python `full[i:i+len(sub)] == sub` together with the bound `i + len(sub) ≤ len(full)`
(the bound matters only for the empty `sub`, where Python still requires the
start position to lie inside the string). -/
def matchesAt (full sub : List Char) (i : Nat) : Bool :=
  decide (i + sub.length ≤ full.length) && ((full.drop i).take sub.length == sub)

/-- Scan positions `i, i+1, ...` (at most `fuel` of them) for the first match of
`sub` in `full`. -/
def pyFindAux (full sub : List Char) : Nat → Nat → Option Nat
  | 0, _ => none
  | fuel + 1, i => if matchesAt full sub i then some i else pyFindAux full sub fuel (i + 1)

/-- Python `full.find(sub, start)` (and `full.index(sub, start)` on success):
the least `i ≥ start` with `full[i:i+len(sub)] == sub`, scanning
`i ≤ len(full)`; `none` when Python raises `ValueError`. -/
def pyFind (full sub : List Char) (start : Nat) : Option Nat :=
  pyFindAux full sub (full.length + 1 - start) start

/-- Python slice `s[a:b]` for natural `a ≤ b`. -/
def pySlice (s : List Char) (a b : Nat) : List Char :=
  (s.take b).drop a

/-- `LanguageFeedbackService.__find_substring_range` (language_feedback.py:254-261):
`start = full_string.index(substring, start_from); end = start + len(substring)`,
with the `ValueError` from a failed `index` caught and turned into `None`. -/
def find_substring_range (full_string substring : List Char) (start_from : Nat) :
    Option (Nat × Nat) :=
  (pyFind full_string substring start_from).map fun s => (s, s + substring.length)

/-- The `while True` loop of `__convert_error_item_to_ranged`
(language_feedback.py:271-279) on one segment, with fuel: repeatedly find the
next occurrence of `quote` starting at `last_idx`, append `(start, end)`, and
resume the search at `end`.  `none` means the loop performed `fuel` iterations
without reaching the `break`. -/
def occLoop (segment quote : List Char) : Nat → Nat → Option (List (Nat × Nat))
  | 0, _ => none
  | fuel + 1, last_idx =>
    match find_substring_range segment quote last_idx with
    | none => some []
    | some (s, e) => (occLoop segment quote fuel e).map fun rest => (s, e) :: rest

/-- The segment scan of `__convert_error_item_to_ranged`
(language_feedback.py:267-279): enumerate the segments from index `i`,
`continue` on odd indices, and run the occurrence loop on the rest,
tagging each `(start, end)` with its segment index. -/
def errorRangesGo (fuel : Nat) (quote : List Char) :
    List (List Char) → Nat → Option (List (Nat × Nat × Nat))
  | [], _ => some []
  | segment :: rest, i =>
    if i % 2 == 1 then errorRangesGo fuel quote rest (i + 1)
    else
      match occLoop segment quote fuel 0 with
      | none => none
      | some occs =>
        (errorRangesGo fuel quote rest (i + 1)).map fun tail =>
          (occs.map fun p => (i, p.1, p.2)) ++ tail

/-- All `(segment_index, start, end)` triples collected by
`__convert_error_item_to_ranged` over a segment list (multi-occurrence mode). -/
def convertErrorItemRanges (fuel : Nat) (quote : List Char) (segments : List (List Char)) :
    Option (List (Nat × Nat × Nat)) :=
  errorRangesGo fuel quote segments 0

/-- The segment scan of `__convert_vocab_item_to_ranged`
(language_feedback.py:294-303) (single-occurrence mode): skip odd indices,
search each remaining segment from offset 0, and stop at the first hit. -/
def vocabRangeGo (quote : List Char) : List (List Char) → Nat → Option (Nat × Nat × Nat)
  | [], _ => none
  | segment :: rest, i =>
    if i % 2 == 1 then vocabRangeGo quote rest (i + 1)
    else
      match find_substring_range segment quote 0 with
      | some (s, e) => some (i, s, e)
      | none => vocabRangeGo quote rest (i + 1)

/-- The single `(segment_index, start, end)` triple located by
`__convert_vocab_item_to_ranged`, if any. -/
def convertVocabItemRange (quote : List Char) (segments : List (List Char)) :
    Option (Nat × Nat × Nat) :=
  vocabRangeGo quote segments 0

/-- `ErrorItem` (models/language_feedback.py:4-7). -/
structure ErrorItem where
  quote : List Char
  error_type : List Char
  correction : List Char
deriving DecidableEq, Repr

/-- `VocabItem` (models/language_feedback.py:9-11). -/
structure VocabItem where
  quote : List Char
  synonyms : List (List Char)
deriving DecidableEq, Repr

/-- `PhoneticItem` (models/language_feedback.py:13-16). -/
structure PhoneticItem where
  quote : List Char
  phonetic_issue : List Char
  suggested_pronunciation : List Char
deriving DecidableEq, Repr

/-- `EvaluationResponse` (models/language_feedback.py:18-22); `phonetics`
defaults to `[]`. -/
structure EvaluationResponse where
  mistakes : List ErrorItem
  inaccuracies : List ErrorItem
  vocabularies : List VocabItem
  phonetics : List PhoneticItem := []
deriving DecidableEq, Repr

/-- `ErrorItemRanged` (models/language_feedback.py:25-30).  `ranges` is
`Optional` with default `None`; `error_type`, `correction` and `quote` have no
default and are required; `found_range` defaults to `True`. -/
structure ErrorItemRanged where
  ranges : Option (List (Nat × Nat × Nat))
  error_type : List Char
  correction : List Char
  quote : List Char
  found_range : Bool
deriving DecidableEq, Repr

/-- `VocabItemRanged` (models/language_feedback.py:32-36).  `range` is
`Optional` with default `None`; `synonyms` and `quote` are required;
`found_range` defaults to `True`. -/
structure VocabItemRanged where
  range : Option (Nat × Nat × Nat)
  synonyms : List (List Char)
  quote : List Char
  found_range : Bool
deriving DecidableEq, Repr

/-- `EvaluationResponseRanged` (models/language_feedback.py:45-49). -/
structure EvaluationResponseRanged where
  mistakes : List ErrorItemRanged
  inaccuracies : List ErrorItemRanged
  vocabularies : List VocabItemRanged
  phonetics : List Char := []
deriving DecidableEq, Repr

/-- A Python exception escaping the conversion: pydantic raises
`ValidationError` when a model constructor is called without a required
field (here recorded as model name and missing field name). -/
inductive PyExcept where
  | validationError (model : List Char) (missingField : List Char)
deriving DecidableEq, Repr

/-- The pydantic constructor call `ErrorItemRanged(ranges=..., error_type=...,
correction=...)` at language_feedback.py:285-289, with `quote?` recording
whether the call site also passes the required `quote` field.  The call in the
source omits it, so pydantic raises `ValidationError` on every such call. -/
def mkErrorItemRanged (ranges : Option (List (Nat × Nat × Nat)))
    (error_type correction : List Char) (quote? : Option (List Char)) :
    Except PyExcept ErrorItemRanged :=
  match quote? with
  | some q => .ok ⟨ranges, error_type, correction, q, true⟩
  | none => .error (.validationError (str "ErrorItemRanged") (str "quote"))

/-- The pydantic constructor call `VocabItemRanged(range=..., synonyms=...)`
at language_feedback.py:309-312; the required `quote` field is again not
passed by the source call site. -/
def mkVocabItemRanged (range : Option (Nat × Nat × Nat))
    (synonyms : List (List Char)) (quote? : Option (List Char)) :
    Except PyExcept VocabItemRanged :=
  match quote? with
  | some q => .ok ⟨range, synonyms, q, true⟩
  | none => .error (.validationError (str "VocabItemRanged") (str "quote"))

/-- `__convert_error_item_to_ranged` (language_feedback.py:263-289).
Outer `Option`: `none` when the occurrence loop does not terminate within
`fuel`.  Inner `Except`: a Python exception escaping the call.  `Option
ErrorItemRanged` is the declared `Optional[ErrorItemRanged]` result (`none`
models the logged-and-dropped `return None` when no range was found). -/
def convert_error_item_to_ranged (fuel : Nat) (error_item : ErrorItem)
    (elevenlabs_segments : List (List Char)) :
    Option (Except PyExcept (Option ErrorItemRanged)) :=
  match convertErrorItemRanges fuel error_item.quote elevenlabs_segments with
  | none => none
  | some ranges =>
    if ranges.isEmpty then some (.ok none)
    else
      some ((mkErrorItemRanged (some ranges) error_item.error_type
        error_item.correction none).map some)

/-- `__convert_vocab_item_to_ranged` (language_feedback.py:291-312). -/
def convert_vocab_item_to_ranged (vocab_item : VocabItem)
    (elevenlabs_segments : List (List Char)) :
    Except PyExcept (Option VocabItemRanged) :=
  match convertVocabItemRange vocab_item.quote elevenlabs_segments with
  | none => .ok none
  | some r => (mkVocabItemRanged (some r) vocab_item.synonyms none).map some

/-- The `for error_item in ...` loops of `__convert_to_ranges`
(language_feedback.py:316-328): convert each item in order, keep the non-`None`
results, and let the first exception propagate. -/
def convertErrorList (fuel : Nat) (items : List ErrorItem)
    (segments : List (List Char)) : Option (Except PyExcept (List ErrorItemRanged)) :=
  match items with
  | [] => some (.ok [])
  | it :: rest =>
    match convert_error_item_to_ranged fuel it segments with
    | none => none
    | some (.error e) => some (.error e)
    | some (.ok none) => convertErrorList fuel rest segments
    | some (.ok (some r)) =>
      (convertErrorList fuel rest segments).map fun res => res.map fun tail => r :: tail

/-- The `for vocab_item in ...` loop of `__convert_to_ranges`
(language_feedback.py:330-335). -/
def convertVocabList (items : List VocabItem) (segments : List (List Char)) :
    Except PyExcept (List VocabItemRanged) :=
  match items with
  | [] => .ok []
  | it :: rest =>
    match convert_vocab_item_to_ranged it segments with
    | .error e => .error e
    | .ok none => convertVocabList rest segments
    | .ok (some r) => (convertVocabList rest segments).map fun tail => r :: tail

/-- `__convert_to_ranges` (language_feedback.py:314-341): the whole batch
conversion of an `EvaluationResponse` against the segment list. -/
def convert_to_ranges (fuel : Nat) (response : EvaluationResponse)
    (elevenlabs_segments : List (List Char)) :
    Option (Except PyExcept EvaluationResponseRanged) :=
  match convertErrorList fuel response.mistakes elevenlabs_segments with
  | none => none
  | some (.error e) => some (.error e)
  | some (.ok mistakes) =>
    match convertErrorList fuel response.inaccuracies elevenlabs_segments with
    | none => none
    | some (.error e) => some (.error e)
    | some (.ok inaccuracies) =>
      match convertVocabList response.vocabularies elevenlabs_segments with
      | .error e => some (.error e)
      | .ok vocabularies => some (.ok ⟨mistakes, inaccuracies, vocabularies, []⟩)

/-- Termination of one multi-occurrence locator call: some amount of fuel makes
every inner `while True` loop reach its `break`. -/
def errorLocatorTerminates (quote : List Char) (segments : List (List Char)) : Prop :=
  ∃ fuel, (convertErrorItemRanges fuel quote segments).isSome

/-- The largest segment length, used as the fuel bound for termination. -/
def maxSegLength (segments : List (List Char)) : Nat :=
  (segments.map List.length).foldr max 0

/-- `Word` (models/elevenlabs.py:5-10).  `start`/`end` are the word's timing
bounds (Python floats, named `start_s`/`end_s` here because `end` is a Lean
keyword); they are carried but never read by segmentation.  `type` ranges over
`"word" | "spacing" | "audio_event"` and `speaker_id` is `Optional[str]`. -/
structure Word where
  text : List Char
  start_s : Float := 0.0
  end_s : Float := 0.0
  type : List Char
  speaker_id : Option (List Char)

/-- One element of the `List[Dict[str, str]]` returned by segmentation: a dict
`{"speaker_id": ..., "content": ...}`.  The `speaker_id` value is `Option`al
because the dict is filled from the loop's `current_speaker` variable, whose
Python type is `Optional[str]`. -/
structure SpeakerSegment where
  speaker_id : Option (List Char)
  content : List Char
deriving DecidableEq, Repr

/-- Python `" ".join(texts)`. -/
def joinSpace : List (List Char) → List Char
  | [] => []
  | [t] => t
  | t :: rest => t ++ ' ' :: joinSpace rest

/-- Python `s.split(" ")`: split on every single space character; the result
always has one more element than the number of spaces (so `"".split(" ") = [""]`). -/
def splitSpace : List Char → List (List Char)
  | [] => [[]]
  | c :: rest =>
    if c = ' ' then [] :: splitSpace rest
    else
      match splitSpace rest with
      | [] => [[c]]
      | parts :: tail => (c :: parts) :: tail

/-- Python `item.speaker_id or 'speaker_0'` (models/elevenlabs.py:142):
Python `or` falls through on every falsy value, so `None` and the empty
string both default to `"speaker_0"`. -/
def pyOrSpeaker (speaker_id : Option (List Char)) : List Char :=
  match speaker_id with
  | none => str "speaker_0"
  | some s => if s = [] then str "speaker_0" else s

/-- The accumulation loop of `_extract_speaker_sequences`
(models/elevenlabs.py:140-172) over the `word`-type tokens: `current_sequence`
is the run of texts accumulated so far and `current_speaker` the speaker it
belongs to; on a speaker change (or at the very start) the pending run is
flushed space-joined, and the final run is flushed after the scan. -/
def segGo : List Word → List (List Char) → Option (List Char) → List SpeakerSegment
  | [], current_sequence, current_speaker =>
    if current_sequence.isEmpty then []
    else [⟨current_speaker, joinSpace current_sequence⟩]
  | item :: rest, current_sequence, current_speaker =>
    if current_speaker = none ∨ current_speaker ≠ some (pyOrSpeaker item.speaker_id) then
      (if current_sequence.isEmpty then []
       else [⟨current_speaker, joinSpace current_sequence⟩])
        ++ segGo rest [item.text] (some (pyOrSpeaker item.speaker_id))
    else segGo rest (current_sequence ++ [item.text]) current_speaker

/-- `_extract_speaker_sequences` (models/elevenlabs.py:122-176): scan the
tokens with `type == 'word'` and group them into speaker runs. -/
def extract_speaker_sequences (words : List Word) : List SpeakerSegment :=
  segGo (words.filter fun w => w.type == str "word") [] none

/-- `ElevenLabsOutput` (models/elevenlabs.py:13-17); the two language fields
are carried but never read by text extraction or segmentation. -/
structure ElevenLabsOutput where
  text : List Char
  words : List Word := []
  language_code : Option (List Char) := none
  language_probability : Option Float := none

/-- `ElevenLabsOutput.extract_text` (models/elevenlabs.py:83-91): the stored
full text if it is truthy (non-empty), else the space-join of the `word`-type
tokens' texts. -/
def extract_text (o : ElevenLabsOutput) : List Char :=
  if o.text ≠ [] then o.text
  else joinSpace ((o.words.filter fun w => w.type == str "word").map Word.text)

/-- `ElevenLabsOutput.extract_segments` (models/elevenlabs.py:93-120): the
public segmentation entry point, with its three full-text fallback branches
(no words at all; no word carries a speaker id; the speaker scan produced no
segments). -/
def extract_segments (o : ElevenLabsOutput) : List SpeakerSegment :=
  if o.words.isEmpty then [⟨some (str "speaker_0"), extract_text o⟩]
  else if o.words.all fun w => w.speaker_id.isNone then
    [⟨some (str "speaker_0"), extract_text o⟩]
  else
    let segments := extract_speaker_sequences o.words
    if segments.isEmpty then [⟨some (str "speaker_0"), extract_text o⟩]
    else segments

/-- Maximal runs of consecutive elements sharing a key, as `(first element,
rest of the run)` pairs; written from the spec's words "a maximal run of
consecutive same-speaker `word`-type tokens" to state the claimed segmentation
algorithm independently of the implementation. -/
def groupRuns (key : Word → List Char) : List Word → List (Word × List Word)
  | [] => []
  | a :: rest =>
    match groupRuns key rest with
    | [] => [(a, [])]
    | (b, g) :: gs =>
      if key a = key b then (a, b :: g) :: gs else (a, []) :: (b, g) :: gs

/-- The segment a run denotes: the run's key as speaker, the space-join of the
run's texts as content. -/
def runSegment (key : Word → List Char) (run : Word × List Word) : SpeakerSegment :=
  ⟨some (key run.1), joinSpace (run.1.text :: run.2.map Word.text)⟩

/-- Segmentation as claimed by the spec, parameterised by the per-word speaker
key: scan only `word`-type tokens, group maximal runs of consecutive tokens
with the same key, and space-join each run. -/
def segmentSpecBy (key : Word → List Char) (words : List Word) : List SpeakerSegment :=
  (groupRuns key (words.filter fun w => w.type == str "word")).map (runSegment key)

/-- The defaulting rule exactly as the claim words it: "a None/missing
speaker_id defaulting to 'speaker_0'". -/
def keyClaim (w : Word) : List Char :=
  w.speaker_id.getD (str "speaker_0")

/-- The speaker key actually used by the implementation: Python
`item.speaker_id or 'speaker_0'`. -/
def keyPy (w : Word) : List Char := pyOrSpeaker w.speaker_id

/-- Refinement helper: the segments produced from a pending run (speaker `s`,
accumulated texts `seq`) followed by the grouped remainder `toks` — the
pending run absorbs the first group of `toks` when the speakers agree. -/
def segSpecCont (key : Word → List Char) (s : List Char) (seq : List (List Char))
    (toks : List Word) : List SpeakerSegment :=
  match groupRuns key toks with
  | [] => [⟨some s, joinSpace seq⟩]
  | (a, g) :: gs =>
    if key a = s then
      ⟨some s, joinSpace (seq ++ a.text :: g.map Word.text)⟩ :: gs.map (runSegment key)
    else ⟨some s, joinSpace seq⟩ :: ((a, g) :: gs).map (runSegment key)

/-- Modelled from the spec: the repository source under src/ does not contain
the Phoneme Aligner of spec §4.3, so the LCS length table is modelled from the
spec's recurrence `L[i][j] = 0` on an empty prefix, `L[i-1][j-1] + 1` on a
symbol match, else `max (L[i-1][j]) (L[i][j-1])` — written here as a recursion
on suffixes with explicit fuel (at the top-level call the fuel
`|hyp| + |ref|` strictly dominates every recursive step). -/
def lcsLenGo : Nat → List Char → List Char → Nat
  | 0, _, _ => 0
  | _ + 1, [], _ => 0
  | _ + 1, _, [] => 0
  | fuel + 1, a :: h, b :: r =>
    if a == b then lcsLenGo fuel h r + 1
    else max (lcsLenGo fuel h (b :: r)) (lcsLenGo fuel (a :: h) r)

/-- Modelled from the spec: LCS length between two phoneme strings. -/
def lcsLen (hyp ref : List Char) : Nat :=
  lcsLenGo (hyp.length + ref.length) hyp ref

/-- Modelled from the spec: the reconstructed LCS symbol sequence of §4.3
step 2, with the fixed tie-break policy "prefer to step in the hypothesis
axis over the reference axis on ties" — on a non-match, when dropping the
next hypothesis symbol loses nothing over dropping the next reference symbol
(scores tie or better), the hypothesis symbol is dropped. -/
def lcsGo : Nat → List Char → List Char → List Char
  | 0, _, _ => []
  | _ + 1, [], _ => []
  | _ + 1, _, [] => []
  | fuel + 1, a :: h, b :: r =>
    if a == b then a :: lcsGo fuel h r
    else if lcsLen h (b :: r) ≥ lcsLen (a :: h) r then lcsGo fuel h (b :: r)
    else lcsGo fuel (a :: h) r

/-- Modelled from the spec: the LCS of the hypothesis and the flat reference. -/
def lcs (hyp ref : List Char) : List Char :=
  lcsGo (hyp.length + ref.length) hyp ref

/-- Split a flat string into chunks of the given lengths — the implicit word
boundaries of §4.3 step 1 ("preserving word boundaries only implicitly, via
the lengths of each word's phoneme chunk"). -/
def splitByLengths : List Char → List Nat → List (List Char)
  | _, [] => []
  | s, n :: ns => s.take n :: splitByLengths (s.drop n) ns

/-- Advance the hypothesis cursor to the next occurrence of symbol `l`:
`some (skipped, rest)` splits the hypothesis into the symbols skipped before
`l` and the symbols after it; `none` is the out-of-bounds condition of §4.3
(the cursor would run past the end of the hypothesis). -/
def spanUntil (l : Char) : List Char → Option (List Char × List Char)
  | [] => none
  | c :: cs =>
    if c == l then some ([], cs)
    else (spanUntil l cs).map fun p => (c :: p.1, p.2)

/-- Modelled from the spec: §4.3 step 3 on a single reference word's chunk.
Walk the chunk symbol-by-symbol; a chunk symbol equal to the next LCS symbol
is a match: every hypothesis symbol skipped before it is accumulated into the
recognized chunk, followed by the matching symbol itself; other chunk symbols
consume nothing.  Returns the recognized chunk and the remaining LCS and
hypothesis cursors.  Per §9 the spec leaves hypothesis exhaustion open; this
model keeps the remaining cursors and stops matching (defensive choice — the
claims proved below do not depend on it). -/
def alignChunk : List Char → List Char → List Char → List Char × List Char × List Char
  | [], lcsRest, hypRest => ([], lcsRest, hypRest)
  | _ :: cs, [], hypRest =>
    let (recTail, lcsRest, hypRest) := alignChunk cs [] hypRest
    (recTail, lcsRest, hypRest)
  | c :: cs, l :: ls, hypRest =>
    if c == l then
      match spanUntil l hypRest with
      | some (skipped, rest) =>
        let (recTail, lcsRest, hypRest) := alignChunk cs ls rest
        (skipped ++ l :: recTail, lcsRest, hypRest)
      | none => ([], l :: ls, hypRest)
    else alignChunk cs (l :: ls) hypRest

/-- Modelled from the spec: walk the reference chunks in order, aligning each
against the shared LCS and hypothesis cursors; one `(recognizedChunk,
referenceChunk)` pair per chunk. -/
def alignGo : List (List Char) → List Char → List Char → List (List Char × List Char)
  | [], _, _ => []
  | chunk :: chunks, lcsRest, hypRest =>
    let (recognized, lcsRest, hypRest) := alignChunk chunk lcsRest hypRest
    (recognized, chunk) :: alignGo chunks lcsRest hypRest

/-- Modelled from the spec: the Phoneme Aligner of §4.3.  Concatenate the
per-word reference sequences with no separator, compute the LCS against the
hypothesis, and walk the reference word-by-word producing one aligned pair per
reference word. -/
def alignPhonemes (hypothesis : List Char) (referenceWords : List (List Char)) :
    List (List Char × List Char) :=
  let flatRef := referenceWords.flatten
  alignGo (splitByLengths flatRef (referenceWords.map List.length))
    (lcs hypothesis flatRef) hypothesis

/-! ## Properties of the substring search -/

theorem matchesAt_spec {full sub : List Char} {i : Nat} (h : matchesAt full sub i = true) :
    i + sub.length ≤ full.length ∧ (full.drop i).take sub.length = sub := by
  simp only [matchesAt, Bool.and_eq_true, decide_eq_true_eq, beq_iff_eq] at h
  exact h

theorem pyFindAux_some {full sub : List Char} {fuel i j : Nat}
    (h : pyFindAux full sub fuel i = some j) : i ≤ j ∧ matchesAt full sub j = true := by
  induction fuel generalizing i with
  | zero => simp [pyFindAux] at h
  | succ fuel ih =>
    rw [pyFindAux] at h
    split at h
    · cases h
      exact ⟨Nat.le_refl _, by assumption⟩
    · obtain ⟨h1, h2⟩ := ih h
      exact ⟨by omega, h2⟩

theorem pyFind_some {full sub : List Char} {start j : Nat}
    (h : pyFind full sub start = some j) :
    start ≤ j ∧ j + sub.length ≤ full.length ∧ (full.drop j).take sub.length = sub := by
  rw [pyFind] at h
  obtain ⟨h1, h2⟩ := pyFindAux_some h
  obtain ⟨h3, h4⟩ := matchesAt_spec h2
  exact ⟨h1, h3, h4⟩

theorem pyFind_empty {full : List Char} {start : Nat} (h : start ≤ full.length) :
    pyFind full [] start = some start := by
  rw [pyFind]
  obtain ⟨k, hk⟩ : ∃ k, full.length + 1 - start = k + 1 := ⟨full.length - start, by omega⟩
  rw [hk, pyFindAux]
  have hm : matchesAt full [] start = true := by
    simp only [matchesAt, List.length_nil, Nat.add_zero, List.take_zero, Bool.and_eq_true,
      decide_eq_true_eq, beq_iff_eq]
    exact ⟨h, trivial⟩
  rw [if_pos hm]

theorem find_substring_range_some {full sub : List Char} {start s e : Nat}
    (h : find_substring_range full sub start = some (s, e)) :
    start ≤ s ∧ e = s + sub.length ∧ s + sub.length ≤ full.length ∧
      (full.drop s).take sub.length = sub := by
  simp only [find_substring_range, Option.map_eq_some'] at h
  obtain ⟨j, hj, hje⟩ := h
  obtain ⟨h1, h2, h3⟩ := pyFind_some hj
  cases hje
  exact ⟨h1, rfl, h2, h3⟩

/-! ## Properties of the occurrence loop -/

theorem occLoop_some {segment quote : List Char} {fuel last : Nat} {ps : List (Nat × Nat)}
    (h : occLoop segment quote fuel last = some ps) :
    ∀ p ∈ ps, last ≤ p.1 ∧ p.2 = p.1 + quote.length ∧
      p.1 + quote.length ≤ segment.length ∧
      (segment.drop p.1).take quote.length = quote := by
  induction fuel generalizing last ps with
  | zero => simp [occLoop] at h
  | succ fuel ih =>
    rw [occLoop] at h
    cases hf : find_substring_range segment quote last with
    | none =>
      rw [hf] at h
      cases h
      intro p hp
      simp at hp
    | some se =>
      obtain ⟨s, e⟩ := se
      rw [hf] at h
      simp only [Option.map_eq_some'] at h
      obtain ⟨rest, hrest, rfl⟩ := h
      obtain ⟨hs1, hs2, hs3, hs4⟩ := find_substring_range_some hf
      intro p hp
      rcases List.mem_cons.mp hp with rfl | hp'
      · exact ⟨hs1, hs2, hs3, hs4⟩
      · obtain ⟨h1, h2, h3, h4⟩ := ih hrest p hp'
        exact ⟨by omega, h2, h3, h4⟩

theorem occLoop_chain {segment quote : List Char} {fuel last : Nat} {ps : List (Nat × Nat)}
    (h : occLoop segment quote fuel last = some ps) :
    List.Chain' (fun a b => a.2 ≤ b.1) ps := by
  induction fuel generalizing last ps with
  | zero => simp [occLoop] at h
  | succ fuel ih =>
    rw [occLoop] at h
    cases hf : find_substring_range segment quote last with
    | none =>
      rw [hf] at h
      cases h
      exact List.chain'_nil
    | some se =>
      obtain ⟨s, e⟩ := se
      rw [hf] at h
      simp only [Option.map_eq_some'] at h
      obtain ⟨rest, hrest, rfl⟩ := h
      refine List.chain'_cons'.mpr ⟨?_, ih hrest⟩
      intro b hb
      have hbmem : b ∈ rest := List.mem_of_mem_head? hb
      exact (occLoop_some hrest b hbmem).1

theorem occLoop_empty_quote {segment : List Char} {fuel last : Nat}
    (h : last ≤ segment.length) : occLoop segment [] fuel last = none := by
  induction fuel generalizing last with
  | zero => rfl
  | succ fuel ih =>
    have hf : find_substring_range segment [] last = some (last, last) := by
      simp [find_substring_range, pyFind_empty h]
    rw [occLoop, hf]
    simp [ih h]

theorem occLoop_isSome {segment quote : List Char} {fuel last : Nat}
    (hq : quote ≠ []) (hlast : last ≤ segment.length)
    (hfuel : segment.length + 1 - last ≤ fuel) :
    (occLoop segment quote fuel last).isSome := by
  induction fuel generalizing last with
  | zero => omega
  | succ fuel ih =>
    rw [occLoop]
    cases hf : find_substring_range segment quote last with
    | none => rfl
    | some se =>
      obtain ⟨s, e⟩ := se
      obtain ⟨h1, h2, h3, _⟩ := find_substring_range_some hf
      have hqlen : 1 ≤ quote.length := by
        cases quote with
        | nil => exact absurd rfl hq
        | cons a l => simp
      have hrec := ih (show e ≤ segment.length by omega)
        (show segment.length + 1 - e ≤ fuel by omega)
      obtain ⟨rest, hrest⟩ := Option.isSome_iff_exists.mp hrec
      simp [hrest]

theorem occLoop_nomatch {segment quote : List Char} {fuel : Nat}
    (h : pyFind segment quote 0 = none) (hfuel : 1 ≤ fuel) :
    occLoop segment quote fuel 0 = some [] := by
  obtain ⟨k, rfl⟩ : ∃ k, fuel = k + 1 := ⟨fuel - 1, by omega⟩
  rw [occLoop]
  have hf : find_substring_range segment quote 0 = none := by
    simp [find_substring_range, h]
  rw [hf]

/-! ## Properties of the per-item segment scans -/

theorem errorRangesGo_some {fuel : Nat} {quote : List Char} {segments : List (List Char)}
    {i : Nat} {rs : List (Nat × Nat × Nat)}
    (h : errorRangesGo fuel quote segments i = some rs) :
    ∀ t ∈ rs, i ≤ t.1 ∧ t.1 % 2 = 0 ∧
      ∃ seg, segments[t.1 - i]? = some seg ∧
        t.2.2 = t.2.1 + quote.length ∧ t.2.1 + quote.length ≤ seg.length ∧
        (seg.drop t.2.1).take quote.length = quote := by
  induction segments generalizing i rs with
  | nil =>
    rw [errorRangesGo] at h
    cases h
    intro t ht
    simp at ht
  | cons seg rest ih =>
    rw [errorRangesGo] at h
    split at h
    · next hodd =>
      intro t ht
      obtain ⟨h1, h2, seg', h3, h4⟩ := ih h t ht
      refine ⟨by omega, h2, seg', ?_, h4⟩
      have hidx : t.1 - i = (t.1 - (i + 1)) + 1 := by omega
      rw [hidx]
      simpa using h3
    · next heven =>
      have hieven : i % 2 = 0 := by
        simp only [beq_iff_eq] at heven
        omega
      cases ho : occLoop seg quote fuel 0 with
      | none => rw [ho] at h; cases h
      | some occs =>
        rw [ho] at h
        simp only [Option.map_eq_some'] at h
        obtain ⟨tail, htail, rfl⟩ := h
        intro t ht
        rcases List.mem_append.mp ht with hmem | hmem
        · obtain ⟨p, hp, rfl⟩ := List.mem_map.mp hmem
          obtain ⟨_, h2, h3, h4⟩ := occLoop_some ho p hp
          exact ⟨Nat.le_refl _, hieven, seg, by simp, h2, h3, h4⟩
        · obtain ⟨h1, h2, seg', h3, h4⟩ := ih htail t hmem
          refine ⟨by omega, h2, seg', ?_, h4⟩
          have hidx : t.1 - i = (t.1 - (i + 1)) + 1 := by omega
          rw [hidx]
          simpa using h3

theorem errorRangesGo_empty_quote {fuel : Nat} {segments : List (List Char)} {i : Nat}
    {rs : List (Nat × Nat × Nat)} (h : errorRangesGo fuel [] segments i = some rs) :
    rs = [] := by
  induction segments generalizing i rs with
  | nil =>
    rw [errorRangesGo] at h
    cases h
    rfl
  | cons seg rest ih =>
    rw [errorRangesGo] at h
    split at h
    · exact ih h
    · rw [occLoop_empty_quote (Nat.zero_le _)] at h
      cases h

theorem errorRangesGo_chain {fuel : Nat} {quote : List Char} {segments : List (List Char)}
    {i : Nat} {rs : List (Nat × Nat × Nat)}
    (h : errorRangesGo fuel quote segments i = some rs) :
    List.Chain' (fun a b => a.1 = b.1 → a.2.2 ≤ b.2.1) rs := by
  induction segments generalizing i rs with
  | nil =>
    rw [errorRangesGo] at h
    cases h
    exact List.chain'_nil
  | cons seg rest ih =>
    rw [errorRangesGo] at h
    split at h
    · exact ih h
    · cases ho : occLoop seg quote fuel 0 with
      | none => rw [ho] at h; cases h
      | some occs =>
        rw [ho] at h
        simp only [Option.map_eq_some'] at h
        obtain ⟨tail, htail, rfl⟩ := h
        refine List.Chain'.append ?_ (ih htail) ?_
        · rw [List.chain'_map]
          refine List.Chain'.imp ?_ (occLoop_chain ho)
          intro a b hab _
          exact hab
        · intro x hx y hy hxy
          exfalso
          have hxmem : x ∈ occs.map fun p => (i, p.1, p.2) := List.mem_of_mem_getLast? hx
          obtain ⟨p, _, rfl⟩ := List.mem_map.mp hxmem
          have hymem : y ∈ tail := List.mem_of_mem_head? hy
          have := (errorRangesGo_some htail y hymem).1
          simp only at hxy
          omega

theorem errorRangesGo_isSome {fuel : Nat} {quote : List Char} {segments : List (List Char)}
    {i : Nat} (hq : quote ≠ [])
    (hfuel : ∀ seg ∈ segments, seg.length + 1 ≤ fuel) :
    (errorRangesGo fuel quote segments i).isSome := by
  induction segments generalizing i with
  | nil => rw [errorRangesGo]; rfl
  | cons seg rest ih =>
    rw [errorRangesGo]
    split
    · exact ih fun s hs => hfuel s (List.mem_cons_of_mem _ hs)
    · have h1 := occLoop_isSome hq (show (0 : Nat) ≤ seg.length from Nat.zero_le _)
        (show seg.length + 1 - 0 ≤ fuel by
          have := hfuel seg (List.mem_cons_self _ _)
          omega)
      obtain ⟨occs, hocc⟩ := Option.isSome_iff_exists.mp h1
      rw [hocc]
      have h2 := ih (i := i + 1) fun s hs => hfuel s (List.mem_cons_of_mem _ hs)
      obtain ⟨tail, htail⟩ := Option.isSome_iff_exists.mp h2
      simp [htail]

theorem errorRangesGo_nomatch {fuel : Nat} {quote : List Char} {segments : List (List Char)}
    {i : Nat} (hfuel : 1 ≤ fuel)
    (h : ∀ j, j < segments.length → (i + j) % 2 = 0 →
      pyFind (segments.getD j []) quote 0 = none) :
    errorRangesGo fuel quote segments i = some [] := by
  induction segments generalizing i with
  | nil => rfl
  | cons seg rest ih =>
    rw [errorRangesGo]
    split
    · exact ih fun j hj hpar => by
        have := h (j + 1) (by simpa using hj) (by omega)
        simpa using this
    · next heven =>
      have hieven : i % 2 = 0 := by
        simp only [beq_iff_eq] at heven
        omega
      have h0 := h 0 (by simp) (by omega)
      rw [occLoop_nomatch (by simpa using h0) hfuel]
      rw [ih fun j hj hpar => by
        have := h (j + 1) (by simpa using hj) (by omega)
        simpa using this]
      rfl

theorem vocabRangeGo_some {quote : List Char} {segments : List (List Char)} {i : Nat}
    {t : Nat × Nat × Nat} (h : vocabRangeGo quote segments i = some t) :
    i ≤ t.1 ∧ t.1 % 2 = 0 ∧
      ∃ seg, segments[t.1 - i]? = some seg ∧
        t.2.2 = t.2.1 + quote.length ∧ t.2.1 + quote.length ≤ seg.length ∧
        (seg.drop t.2.1).take quote.length = quote := by
  induction segments generalizing i with
  | nil => rw [vocabRangeGo] at h; cases h
  | cons seg rest ih =>
    rw [vocabRangeGo] at h
    split at h
    · next hodd =>
      obtain ⟨h1, h2, seg', h3, h4⟩ := ih h
      refine ⟨by omega, h2, seg', ?_, h4⟩
      have hidx : t.1 - i = (t.1 - (i + 1)) + 1 := by omega
      rw [hidx]
      simpa using h3
    · next heven =>
      have hieven : i % 2 = 0 := by
        simp only [beq_iff_eq] at heven
        omega
      cases hf : find_substring_range seg quote 0 with
      | some se =>
        obtain ⟨s, e⟩ := se
        rw [hf] at h
        cases h
        obtain ⟨_, h2, h3, h4⟩ := find_substring_range_some hf
        exact ⟨Nat.le_refl _, hieven, seg, by simp, h2, h3, h4⟩
      | none =>
        rw [hf] at h
        obtain ⟨h1, h2, seg', h3, h4⟩ := ih h
        refine ⟨by omega, h2, seg', ?_, h4⟩
        have hidx : t.1 - i = (t.1 - (i + 1)) + 1 := by omega
        rw [hidx]
        simpa using h3

theorem pySlice_drop_take {seg : List Char} {s n : Nat} :
    pySlice seg s (s + n) = (seg.drop s).take n := by
  rw [pySlice, List.drop_take]
  simp

theorem maxSegLength_bound {segments : List (List Char)} {seg : List Char}
    (h : seg ∈ segments) : seg.length ≤ maxSegLength segments := by
  induction segments with
  | nil => simp at h
  | cons a rest ih =>
    rcases List.mem_cons.mp h with rfl | h'
    · simp [maxSegLength]
    · have := ih h'
      simp only [maxSegLength, List.map_cons, List.foldr_cons] at this ⊢
      omega

theorem convertErrorItemRanges_empty_cons (fuel : Nat) (seg : List Char)
    (rest : List (List Char)) :
    convertErrorItemRanges fuel [] (seg :: rest) = none := by
  unfold convertErrorItemRanges
  rw [errorRangesGo, if_neg (by simp), occLoop_empty_quote (Nat.zero_le _)]

/-! ## Claim theorems -/

/-- C1: Locator exactness — every `(segment_index, start, end)` triple produced
by either locator mode satisfies `segments[segment_index][start:end] == quote`;
the matching is exact literal substring matching. -/
theorem locator_exactness :
    (∀ (fuel : Nat) (segments : List (List Char)) (quote : List Char)
        (rs : List (Nat × Nat × Nat)),
        convertErrorItemRanges fuel quote segments = some rs →
        ∀ t ∈ rs, ∃ seg, segments[t.1]? = some seg ∧ pySlice seg t.2.1 t.2.2 = quote) ∧
    (∀ (segments : List (List Char)) (quote : List Char) (t : Nat × Nat × Nat),
        convertVocabItemRange quote segments = some t →
        ∃ seg, segments[t.1]? = some seg ∧ pySlice seg t.2.1 t.2.2 = quote) := by
  constructor
  · intro fuel segments quote rs h t ht
    unfold convertErrorItemRanges at h
    obtain ⟨_, _, seg, h3, h4, _, h6⟩ := errorRangesGo_some h t ht
    refine ⟨seg, by simpa using h3, ?_⟩
    rw [h4, pySlice_drop_take, h6]
  · intro segments quote t h
    unfold convertVocabItemRange at h
    obtain ⟨_, _, seg, h3, h4, _, h6⟩ := vocabRangeGo_some h
    refine ⟨seg, by simpa using h3, ?_⟩
    rw [h4, pySlice_drop_take, h6]

theorem locator_exactness_witness :
    (convertErrorItemRanges 4 (str "a") [str "aba"] = some [(0, 0, 1), (0, 2, 3)] ∧
      ∀ t ∈ [((0 : Nat), (0 : Nat), (1 : Nat)), (0, 2, 3)],
        ∃ seg, [str "aba"][t.1]? = some seg ∧ pySlice seg t.2.1 t.2.2 = str "a") ∧
    (convertVocabItemRange (str "b") [str "ab"] = some (0, 1, 2) ∧
      ∃ seg, [str "ab"][(0 : Nat)]? = some seg ∧ pySlice seg 1 2 = str "b") :=
  ⟨⟨by decide, locator_exactness.1 4 [str "aba"] (str "a") [(0, 0, 1), (0, 2, 3)] (by decide)⟩,
   ⟨by decide, locator_exactness.2 [str "ab"] (str "b") (0, 1, 2) (by decide)⟩⟩

/-- C4: Located-occurrence invariant — every located triple has `start < end`,
and consecutive triples that belong to the same segment never overlap
(`e1 ≤ s2`), since the scan resumes just past the previous match. -/
theorem located_occurrence_invariant :
    ∀ (fuel : Nat) (segments : List (List Char)) (quote : List Char)
      (rs : List (Nat × Nat × Nat)),
      convertErrorItemRanges fuel quote segments = some rs →
      (∀ t ∈ rs, t.2.1 < t.2.2) ∧
      List.Chain' (fun a b => a.1 = b.1 → a.2.2 ≤ b.2.1) rs := by
  intro fuel segments quote rs h
  unfold convertErrorItemRanges at h
  constructor
  · intro t ht
    obtain ⟨_, _, seg, _, h4, _, _⟩ := errorRangesGo_some h t ht
    have hq : quote ≠ [] := by
      rintro rfl
      rw [errorRangesGo_empty_quote h] at ht
      simp at ht
    have hlen : 0 < quote.length := List.length_pos.mpr hq
    omega
  · exact errorRangesGo_chain h

theorem located_occurrence_invariant_witness :
    convertErrorItemRanges 4 (str "a") [str "aa"] = some [(0, 0, 1), (0, 1, 2)] ∧
      ((∀ t ∈ [((0 : Nat), (0 : Nat), (1 : Nat)), (0, 1, 2)], t.2.1 < t.2.2) ∧
        List.Chain' (fun a b => a.1 = b.1 → a.2.2 ≤ b.2.1)
          [((0 : Nat), (0 : Nat), (1 : Nat)), (0, 1, 2)]) :=
  ⟨by decide,
   located_occurrence_invariant 4 [str "aa"] (str "a") [(0, 0, 1), (0, 1, 2)] (by decide)⟩

/-- C5: Odd-index exclusion — in both locator modes every returned triple has
an even segment index, and a quote that matches no even-indexed segment yields
zero occurrences, so the item converts to the dropped `None` result. -/
theorem odd_index_exclusion :
    (∀ (fuel : Nat) (segments : List (List Char)) (quote : List Char)
        (rs : List (Nat × Nat × Nat)),
        convertErrorItemRanges fuel quote segments = some rs → ∀ t ∈ rs, t.1 % 2 = 0) ∧
    (∀ (segments : List (List Char)) (quote : List Char) (t : Nat × Nat × Nat),
        convertVocabItemRange quote segments = some t → t.1 % 2 = 0) ∧
    (∀ (fuel : Nat) (item : ErrorItem) (segments : List (List Char)), 1 ≤ fuel →
        (∀ j, j < segments.length → j % 2 = 0 →
          pyFind (segments.getD j []) item.quote 0 = none) →
        convert_error_item_to_ranged fuel item segments = some (.ok none)) := by
  refine ⟨?_, ?_, ?_⟩
  · intro fuel segments quote rs h t ht
    unfold convertErrorItemRanges at h
    exact (errorRangesGo_some h t ht).2.1
  · intro segments quote t h
    unfold convertVocabItemRange at h
    exact (vocabRangeGo_some h).2.1
  · intro fuel item segments hfuel h
    unfold convert_error_item_to_ranged convertErrorItemRanges
    rw [errorRangesGo_nomatch hfuel (fun j hj hpar => h j hj (by omega))]
    rfl

theorem odd_index_exclusion_witness :
    (convertErrorItemRanges 3 (str "a") [str "ab"] = some [(0, 0, 1)] ∧
      ∀ t ∈ [((0 : Nat), (0 : Nat), (1 : Nat))], t.1 % 2 = 0) ∧
    (convertVocabItemRange (str "b") [str "ab"] = some (0, 1, 2) ∧ (0 : Nat) % 2 = 0) ∧
    ((1 : Nat) ≤ 2 ∧
      (∀ j, j < ([str "x", str "a"] : List (List Char)).length → j % 2 = 0 →
        pyFind ([str "x", str "a"].getD j []) (str "a") 0 = none) ∧
      convert_error_item_to_ranged 2 ⟨str "a", str "g", str "c"⟩ [str "x", str "a"] =
        some (.ok none)) :=
  ⟨⟨by decide, odd_index_exclusion.1 3 [str "ab"] (str "a") [(0, 0, 1)] (by decide)⟩,
   ⟨by decide, odd_index_exclusion.2.1 [str "ab"] (str "b") (0, 1, 2) (by decide)⟩,
   ⟨by decide, by decide,
    odd_index_exclusion.2.2 2 ⟨str "a", str "g", str "c"⟩ [str "x", str "a"]
      (by decide) (by decide)⟩⟩

/-- C6 counterexample: the claim includes the empty quote, but on quote `""`
with the non-empty segment list `["a"]` the occurrence loop never advances
(`last_idx` stays at the empty match's end), so no amount of fuel makes the
multi-occurrence locator finish: the call does not terminate. -/
theorem locator_diverges_on_empty_quote :
    ¬ errorLocatorTerminates (str "") [str "a"] := by
  intro hterm
  obtain ⟨fuel, h⟩ := hterm
  have hq : str "" = [] := rfl
  rw [hq, convertErrorItemRanges_empty_cons] at h
  simp at h

/-- C6 (amended): for every non-empty quote the multi-occurrence locator call
terminates within fuel bounded by the input size (the longest segment plus
one loop iteration per segment scan). -/
theorem locator_terminates_on_nonempty_quote :
    ∀ (segments : List (List Char)) (quote : List Char), quote ≠ [] →
      (convertErrorItemRanges (maxSegLength segments + 1) quote segments).isSome := by
  intro segments quote hq
  unfold convertErrorItemRanges
  exact errorRangesGo_isSome hq fun seg hs => by
    have := maxSegLength_bound hs
    omega

theorem locator_terminates_on_nonempty_quote_witness :
    str "a" ≠ [] ∧
      (convertErrorItemRanges (maxSegLength [str "ab"] + 1) (str "a") [str "ab"]).isSome :=
  ⟨by decide, locator_terminates_on_nonempty_quote [str "ab"] (str "a") (by decide)⟩

/-- C2: at a concrete input whose quote is located, the batch conversion
raises instead of returning: the service constructs `ErrorItemRanged` without
its required `quote` field, so pydantic raises `ValidationError` and
`__convert_to_ranges` lets it propagate to the caller. -/
theorem batch_conversion_raises_on_located_item :
    convert_to_ranges 3
        ⟨[⟨str "a", str "grammatical_error", str "korrekt"⟩], [], [], []⟩ [str "ab"] =
      some (.error (.validationError (str "ErrorItemRanged") (str "quote"))) := by
  rfl

/-! ## Aligner lemmas -/

theorem alignGo_map_snd (chunks : List (List Char)) :
    ∀ l h : List Char, (alignGo chunks l h).map Prod.snd = chunks := by
  induction chunks with
  | nil => intro l h; rfl
  | cons c cs ih =>
    intro l h
    rw [alignGo]
    rcases hA : alignChunk c l h with ⟨r, l', h'⟩
    simp [hA, ih]

theorem splitByLengths_flatten (ws : List (List Char)) :
    splitByLengths ws.flatten (ws.map List.length) = ws := by
  induction ws with
  | nil => rfl
  | cons w ws ih =>
    simp only [List.flatten_cons, List.map_cons, splitByLengths]
    rw [List.take_left, List.drop_left, ih]

/-- C3: Aligner reconstruction — for every hypothesis and per-word reference
list, the aligner returns exactly one pair per reference word, in
reference-word order (the reference chunks are exactly the reference words),
so concatenating the `referenceChunk` values reproduces the flat reference;
the spec's scenario 3 (`"abc"` against `["a","bc"]`) yields the identity
alignment. -/
theorem aligner_reconstruction :
    (∀ (hypothesis : List Char) (referenceWords : List (List Char)),
        (alignPhonemes hypothesis referenceWords).map Prod.snd = referenceWords ∧
        ((alignPhonemes hypothesis referenceWords).map Prod.snd).flatten =
          referenceWords.flatten ∧
        (alignPhonemes hypothesis referenceWords).length = referenceWords.length) ∧
    alignPhonemes (str "abc") [str "a", str "bc"] =
      [(str "a", str "a"), (str "bc", str "bc")] := by
  constructor
  · intro hyp ws
    have h1 : (alignPhonemes hyp ws).map Prod.snd = ws := by
      show (alignGo (splitByLengths ws.flatten (ws.map List.length))
        (lcs hyp ws.flatten) hyp).map Prod.snd = ws
      rw [alignGo_map_snd, splitByLengths_flatten]
    refine ⟨h1, by rw [h1], ?_⟩
    have h2 := congrArg List.length h1
    simpa using h2
  · decide

/-! ## Segmentation refinement lemmas -/

theorem groupRuns_cons_head (key : Word → List Char) (t : Word) (toks : List Word) :
    ∃ g gs, groupRuns key (t :: toks) = (t, g) :: gs := by
  cases hgr : groupRuns key toks with
  | nil => exact ⟨[], [], by rw [groupRuns, hgr]⟩
  | cons bg gs =>
    obtain ⟨b, g⟩ := bg
    by_cases hb : key t = key b
    · exact ⟨b :: g, gs, by rw [groupRuns, hgr]; simp [hb]⟩
    · exact ⟨[], (b, g) :: gs, by rw [groupRuns, hgr]; simp [hb]⟩

theorem segSpecCont_start (t : Word) (toks : List Word) :
    segSpecCont keyPy (keyPy t) [t.text] toks =
      (groupRuns keyPy (t :: toks)).map (runSegment keyPy) := by
  cases hg : groupRuns keyPy toks with
  | nil =>
    rw [segSpecCont, hg, groupRuns, hg]
    simp [runSegment]
  | cons bg gs =>
    obtain ⟨b, g⟩ := bg
    rw [segSpecCont, hg, groupRuns, hg]
    by_cases hb : keyPy t = keyPy b
    · simp [hb, runSegment]
    · simp [hb, Ne.symm hb, runSegment]

theorem segSpecCont_cons_same (t : Word) (toks : List Word) (s : List Char)
    (seq : List (List Char)) (hk : keyPy t = s) :
    segSpecCont keyPy s seq (t :: toks) = segSpecCont keyPy s (seq ++ [t.text]) toks := by
  subst hk
  cases hg : groupRuns keyPy toks with
  | nil =>
    rw [segSpecCont, segSpecCont, hg, groupRuns, hg]
    simp [runSegment]
  | cons bg gs =>
    obtain ⟨b, g⟩ := bg
    rw [segSpecCont, segSpecCont, hg, groupRuns, hg]
    by_cases hb : keyPy t = keyPy b
    · simp [hb, runSegment]
    · simp [hb, Ne.symm hb, runSegment]

theorem segSpecCont_flush (t : Word) (toks : List Word) (s : List Char)
    (seq : List (List Char)) (hk : keyPy t ≠ s) :
    segSpecCont keyPy s seq (t :: toks) =
      ⟨some s, joinSpace seq⟩ :: (groupRuns keyPy (t :: toks)).map (runSegment keyPy) := by
  obtain ⟨g, gs, hg⟩ := groupRuns_cons_head keyPy t toks
  rw [segSpecCont, hg]
  simp [hk]

theorem segGo_eq_segSpecCont (toks : List Word) :
    ∀ (s : List Char) (seq : List (List Char)), seq ≠ [] →
      segGo toks seq (some s) = segSpecCont keyPy s seq toks := by
  induction toks with
  | nil =>
    intro s seq hseq
    obtain ⟨x, xs, rfl⟩ : ∃ x xs, seq = x :: xs := by
      cases seq with
      | nil => exact absurd rfl hseq
      | cons x xs => exact ⟨x, xs, rfl⟩
    rw [segGo, segSpecCont, groupRuns]
    simp
  | cons t toks ih =>
    intro s seq hseq
    have hkey : pyOrSpeaker t.speaker_id = keyPy t := rfl
    by_cases hk : keyPy t = s
    · rw [segGo]
      have hcond : ¬ ((some s : Option (List Char)) = none ∨
          (some s : Option (List Char)) ≠ some (pyOrSpeaker t.speaker_id)) := by
        push_neg
        refine ⟨by simp, ?_⟩
        rw [hkey, hk]
      rw [if_neg hcond, ih s (seq ++ [t.text]) (by simp)]
      exact (segSpecCont_cons_same t toks s seq hk).symm
    · rw [segGo]
      have hcond : (some s : Option (List Char)) = none ∨
          (some s : Option (List Char)) ≠ some (pyOrSpeaker t.speaker_id) := by
        right
        intro hcontra
        exact hk (Option.some.inj hcontra).symm
      rw [if_pos hcond]
      obtain ⟨x, xs, rfl⟩ : ∃ x xs, seq = x :: xs := by
        cases seq with
        | nil => exact absurd rfl hseq
        | cons x xs => exact ⟨x, xs, rfl⟩
      rw [hkey, ih (keyPy t) [t.text] (by simp), segSpecCont_start,
        segSpecCont_flush t toks s (x :: xs) hk]
      simp

/-- C7 counterexample: the claim defaults only a `None`/missing `speaker_id`
to `"speaker_0"`, but Python's `or` also defaults the falsy empty string, so
on a word with `speaker_id=""` followed by one with `speaker_id="speaker_0"`
the implementation merges both into one `"speaker_0"` run while the claimed
algorithm keeps two runs with distinct speakers. -/
theorem segmentation_strict_none_default_refuted :
    extract_speaker_sequences
        [⟨str "a", 0.0, 0.0, str "word", some (str "")⟩,
         ⟨str "b", 0.0, 0.0, str "word", some (str "speaker_0")⟩] ≠
      segmentSpecBy keyClaim
        [⟨str "a", 0.0, 0.0, str "word", some (str "")⟩,
         ⟨str "b", 0.0, 0.0, str "word", some (str "speaker_0")⟩] := by
  decide

/-- C7 (amended): segmentation scans only `word`-type tokens, groups maximal
runs of consecutive tokens with the same speaker key, space-joins each run,
flushes on every speaker change plus once at the end, and preserves order —
with the defaulting rule `speaker_id or 'speaker_0'`, which sends `None` and
the falsy empty string to `"speaker_0"`; the claim's example holds. -/
theorem segmentation_matches_spec_falsy_default :
    (∀ words : List Word, extract_speaker_sequences words = segmentSpecBy keyPy words) ∧
    extract_speaker_sequences
        [⟨str "Hi", 0.0, 0.0, str "word", some (str "spk0")⟩,
         ⟨str "there", 0.0, 0.0, str "word", some (str "spk0")⟩,
         ⟨str "you", 0.0, 0.0, str "word", some (str "spk1")⟩] =
      [⟨some (str "spk0"), str "Hi there"⟩, ⟨some (str "spk1"), str "you"⟩] := by
  constructor
  · intro words
    rw [extract_speaker_sequences, segmentSpecBy]
    cases htoks : words.filter (fun w => w.type == str "word") with
    | nil => rfl
    | cons t ts =>
      rw [segGo, if_pos (Or.inl rfl)]
      have hkey : pyOrSpeaker t.speaker_id = keyPy t := rfl
      rw [hkey, segGo_eq_segSpecCont ts (keyPy t) [t.text] (by simp), segSpecCont_start]
      simp
  · decide

/-! ## Split/join round-trip and segmentation coverage -/

theorem splitSpace_no_space {t : List Char} (h : ' ' ∉ t) : splitSpace t = [t] := by
  induction t with
  | nil => rfl
  | cons c rest ih =>
    have hc : ¬ c = ' ' := fun hcontra => h (hcontra ▸ List.mem_cons_self _ _)
    have hrest : ' ' ∉ rest := fun hm => h (List.mem_cons_of_mem _ hm)
    rw [splitSpace, if_neg hc, ih hrest]

theorem splitSpace_append {t : List Char} (r : List Char) (h : ' ' ∉ t) :
    splitSpace (t ++ ' ' :: r) = t :: splitSpace r := by
  induction t with
  | nil =>
    rw [List.nil_append, splitSpace, if_pos rfl]
  | cons c rest ih =>
    have hc : ¬ c = ' ' := fun hcontra => h (hcontra ▸ List.mem_cons_self _ _)
    have hrest : ' ' ∉ rest := fun hm => h (List.mem_cons_of_mem _ hm)
    rw [List.cons_append, splitSpace, if_neg hc, ih hrest]

theorem splitSpace_joinSpace {ts : List (List Char)} (hne : ts ≠ [])
    (h : ∀ x ∈ ts, ' ' ∉ x) : splitSpace (joinSpace ts) = ts := by
  induction ts with
  | nil => exact absurd rfl hne
  | cons t rest ih =>
    cases rest with
    | nil => exact splitSpace_no_space (h t (List.mem_cons_self _ _))
    | cons u us =>
      have hjoin : joinSpace (t :: u :: us) = t ++ ' ' :: joinSpace (u :: us) := rfl
      rw [hjoin, splitSpace_append _ (h t (List.mem_cons_self _ _)),
        ih (by simp) fun x hx => h x (List.mem_cons_of_mem _ hx)]

theorem segGo_coverage (toks : List Word) :
    ∀ (seq : List (List Char)) (spk : Option (List Char)), seq ≠ [] →
      (∀ x ∈ seq, ' ' ∉ x) → (∀ w ∈ toks, ' ' ∉ w.text) →
      ((segGo toks seq spk).map fun sg => splitSpace sg.content).flatten =
        seq ++ toks.map Word.text := by
  induction toks with
  | nil =>
    intro seq spk hne hseq _
    obtain ⟨x, xs, rfl⟩ : ∃ x xs, seq = x :: xs := by
      cases seq with
      | nil => exact absurd rfl hne
      | cons x xs => exact ⟨x, xs, rfl⟩
    rw [segGo]
    simp [splitSpace_joinSpace hne hseq]
  | cons t ts ih =>
    intro seq spk hne hseq htoks
    obtain ⟨x, xs, rfl⟩ : ∃ x xs, seq = x :: xs := by
      cases seq with
      | nil => exact absurd rfl hne
      | cons x xs => exact ⟨x, xs, rfl⟩
    have httext : ' ' ∉ t.text := htoks t (List.mem_cons_self _ _)
    have hts : ∀ w ∈ ts, ' ' ∉ w.text := fun w hw => htoks w (List.mem_cons_of_mem _ hw)
    rw [segGo]
    split
    · have hrec := ih [t.text] (some (pyOrSpeaker t.speaker_id)) (by simp)
        (by simpa using httext) hts
      simp only [List.isEmpty_cons, List.map_append, List.flatten_append]
      rw [hrec]
      simp [splitSpace_joinSpace hne hseq]
    · have hrec := ih ((x :: xs) ++ [t.text]) spk (by simp)
        (by
          intro y hy
          rcases List.mem_append.mp hy with hy' | hy'
          · exact hseq y hy'
          · rw [List.mem_singleton.mp hy']
            exact httext) hts
      rw [hrec]
      simp

/-- C9 counterexample: a `word`-type token whose text itself contains a space
(`"a b"`) produces a segment whose space-split yields two words, so the
claimed coverage round-trip fails on that input. -/
theorem segmentation_coverage_refuted_on_space :
    ¬ (((extract_speaker_sequences
          [⟨str "a b", 0.0, 0.0, str "word", some (str "s")⟩]).map
            fun sg => splitSpace sg.content).flatten =
        ([⟨str "a b", 0.0, 0.0, str "word", some (str "s")⟩].filter
            fun w => w.type == str "word").map Word.text) := by
  decide

/-- C9 (amended): for every Word sequence whose `word`-type texts are free of
space characters, splitting each segment's content on spaces and concatenating
across segments reproduces exactly the ordered texts of the `word`-type
tokens. -/
theorem segmentation_coverage_space_free :
    ∀ words : List Word,
      (∀ w ∈ words, w.type = str "word" → ' ' ∉ w.text) →
      ((extract_speaker_sequences words).map fun sg => splitSpace sg.content).flatten =
        (words.filter fun w => w.type == str "word").map Word.text := by
  intro words h
  rw [extract_speaker_sequences]
  cases htoks : words.filter (fun w => w.type == str "word") with
  | nil => rfl
  | cons t ts =>
    have hmem : ∀ w ∈ t :: ts, ' ' ∉ w.text := by
      intro w hw
      have hw' : w ∈ words.filter (fun w => w.type == str "word") := htoks ▸ hw
      obtain ⟨hwords, htype⟩ := List.mem_filter.mp hw'
      exact h w hwords (by simpa using htype)
    rw [segGo, if_pos (Or.inl rfl)]
    have hrec := segGo_coverage ts [t.text] (some (pyOrSpeaker t.speaker_id)) (by simp)
      (by simpa using hmem t (List.mem_cons_self _ _))
      (fun w hw => hmem w (List.mem_cons_of_mem _ hw))
    simp only [List.isEmpty_nil, if_true, List.nil_append]
    rw [hrec]
    rfl

theorem segmentation_coverage_space_free_witness :
    (∀ w ∈ ([⟨str "Hi", 0.0, 0.0, str "word", some (str "spk0")⟩,
             ⟨str "there", 0.0, 0.0, str "word", some (str "spk0")⟩,
             ⟨str "you", 0.0, 0.0, str "word", some (str "spk1")⟩] : List Word),
        w.type = str "word" → ' ' ∉ w.text) ∧
      ((extract_speaker_sequences
          [⟨str "Hi", 0.0, 0.0, str "word", some (str "spk0")⟩,
           ⟨str "there", 0.0, 0.0, str "word", some (str "spk0")⟩,
           ⟨str "you", 0.0, 0.0, str "word", some (str "spk1")⟩]).map
          fun sg => splitSpace sg.content).flatten =
        ([⟨str "Hi", 0.0, 0.0, str "word", some (str "spk0")⟩,
          ⟨str "there", 0.0, 0.0, str "word", some (str "spk0")⟩,
          ⟨str "you", 0.0, 0.0, str "word", some (str "spk1")⟩].filter
            fun w => w.type == str "word").map Word.text :=
  ⟨by decide,
   segmentation_coverage_space_free
     [⟨str "Hi", 0.0, 0.0, str "word", some (str "spk0")⟩,
      ⟨str "there", 0.0, 0.0, str "word", some (str "spk0")⟩,
      ⟨str "you", 0.0, 0.0, str "word", some (str "spk1")⟩] (by decide)⟩

/-- C8 counterexample: on an empty word list `extract_segments` does not
return the empty segment list — it returns the single full-text fallback
segment. -/
theorem empty_words_not_empty_segment_list :
    (⟨str "hello", [], none, none⟩ : ElevenLabsOutput).words = [] ∧
      extract_segments (⟨str "hello", [], none, none⟩ : ElevenLabsOutput) ≠ [] := by
  constructor
  · rfl
  · decide

/-- C8 (amended): an empty word list is not an error, but the public
segmentation operation returns exactly one fallback segment — speaker
`"speaker_0"` with the extracted full text as content — rather than the empty
list. -/
theorem empty_words_single_fallback_segment :
    ∀ o : ElevenLabsOutput, o.words = [] →
      extract_segments o = [⟨some (str "speaker_0"), extract_text o⟩] := by
  intro o h
  rw [extract_segments, if_pos (by simp [h])]

theorem empty_words_single_fallback_segment_witness :
    (⟨str "hi", [], none, none⟩ : ElevenLabsOutput).words = [] ∧
      extract_segments (⟨str "hi", [], none, none⟩ : ElevenLabsOutput) =
        [⟨some (str "speaker_0"),
          extract_text (⟨str "hi", [], none, none⟩ : ElevenLabsOutput)⟩] :=
  ⟨rfl, empty_words_single_fallback_segment ⟨str "hi", [], none, none⟩ rfl⟩

/-- C10 counterexample: with a non-empty word list whose speakers are all
`None` but an empty stored `text` field, `extract_segments` does not return
the stored full-text field verbatim — `extract_text` falls back to the
space-join of the `word`-type tokens' texts. -/
theorem all_none_speakers_raw_text_refuted :
    (⟨str "", [⟨str "hi", 0.0, 0.0, str "word", none⟩], none, none⟩ :
        ElevenLabsOutput).words ≠ [] ∧
      (∀ w ∈ (⟨str "", [⟨str "hi", 0.0, 0.0, str "word", none⟩], none, none⟩ :
          ElevenLabsOutput).words, w.speaker_id = none) ∧
      extract_segments
          (⟨str "", [⟨str "hi", 0.0, 0.0, str "word", none⟩], none, none⟩ :
            ElevenLabsOutput) ≠
        [⟨some (str "speaker_0"),
          (⟨str "", [⟨str "hi", 0.0, 0.0, str "word", none⟩], none, none⟩ :
            ElevenLabsOutput).text⟩] := by
  refine ⟨by simp, by decide, by decide⟩

/-- C10 (amended): whenever the word list is non-empty, every word's
`speaker_id` is `None`, and the stored full-text field is non-empty (truthy),
`extract_segments` returns exactly one segment with speaker `"speaker_0"`
whose content is the stored full-text field verbatim, not the space-join of
the `word`-type tokens' texts. -/
theorem all_none_speakers_full_text_segment :
    ∀ o : ElevenLabsOutput, o.words ≠ [] → (∀ w ∈ o.words, w.speaker_id = none) →
      o.text ≠ [] → extract_segments o = [⟨some (str "speaker_0"), o.text⟩] := by
  intro o h1 h2 h3
  have hne : o.words.isEmpty = false := by
    cases hw : o.words with
    | nil => exact absurd hw h1
    | cons a l => rfl
  have hall : (o.words.all fun w => w.speaker_id.isNone) = true := by
    rw [List.all_eq_true]
    intro w hw
    rw [h2 w hw]
    rfl
  rw [extract_segments, if_neg (by simp [hne]), if_pos hall, extract_text, if_pos h3]

theorem all_none_speakers_full_text_segment_witness :
    (⟨str "Hallo!", [⟨str "Hallo", 0.0, 0.0, str "word", none⟩], none, none⟩ :
        ElevenLabsOutput).words ≠ [] ∧
      (∀ w ∈ (⟨str "Hallo!", [⟨str "Hallo", 0.0, 0.0, str "word", none⟩], none, none⟩ :
          ElevenLabsOutput).words, w.speaker_id = none) ∧
      (⟨str "Hallo!", [⟨str "Hallo", 0.0, 0.0, str "word", none⟩], none, none⟩ :
          ElevenLabsOutput).text ≠ [] ∧
      extract_segments
          (⟨str "Hallo!", [⟨str "Hallo", 0.0, 0.0, str "word", none⟩], none, none⟩ :
            ElevenLabsOutput) =
        [⟨some (str "speaker_0"),
          (⟨str "Hallo!", [⟨str "Hallo", 0.0, 0.0, str "word", none⟩], none, none⟩ :
            ElevenLabsOutput).text⟩] :=
  ⟨by simp, by decide, by decide,
   all_none_speakers_full_text_segment
     ⟨str "Hallo!", [⟨str "Hallo", 0.0, 0.0, str "word", none⟩], none, none⟩
     (by simp) (by decide) (by decide)⟩
